import Mathlib

set_option linter.unusedVariables false

/-!
Shallow embedding of the multi-cursor match-navigation core of
`src/sublime_helpers.py`: the function `closest_visible` (lines 142-170),
the class `CursorMatch` (lines 173-181), the generator `cursor_to_matches`
(lines 184-276) and the class `LoopLimit` (lines 341-353), together with
the data model of editor regions (a region is a pair of positions;
`contains` is range inclusion).

Python generators are modelled as functions returning the list of yielded
values paired with an optional raised error: `(yields, none)` is a run
that finished normally, `(yields, some e)` is a run that raised `e` after
having yielded `yields`.
-/

/-- An editor region: a pair of buffer positions.  Fields `begin`/`stop`
model the `begin()`/`end()` accessors of the editor's `Region` type
(`end` is a reserved word in Lean).  The editor guarantees
`begin() ≤ end()` for real regions; theorems that need that take it as a
hypothesis. -/
structure Region where
  begin : Nat
  stop : Nat
deriving DecidableEq, Repr

/-- Modelled from the spec: `a.contains r` is range inclusion,
`a.begin ≤ r.begin` and `r.end ≤ a.end` (the editor's `Region.contains`,
which is external to the repository). -/
def Region.contains (a r : Region) : Bool :=
  decide (a.begin ≤ r.begin) && decide (r.stop ≤ a.stop)

/-- One yielded value of the generator `cursor_to_matches`
(`class CursorMatch`, src/sublime_helpers.py lines 173-181): `orig` is the
cursor consumed by this assignment (`None` for the no-cursor and wrap
assignments), `region` the match assigned to it, `is_visible` whether this
is the assignment the viewport should follow.  `region` is an `Option`
because the Python constructor accepts any value; every non-degenerate
call site stores a region. -/
structure CursorMatch where
  orig : Option Region
  region : Option Region
  is_visible : Bool
deriving DecidableEq, Repr

/-- The message `cursor_to_matches` constructs its `LoopLimit` with
(src/sublime_helpers.py lines 228-231). -/
def LoopLimit.message : String :=
  "Overflowed the search, either there were too many items (over 10000), or there is an infinite loop bug"

/-- The default budget of `class LoopLimit` (src/sublime_helpers.py line
344: `def __init__(self, message=None, limit=1000)`).  `cursor_to_matches`
constructs its limit without a `limit` argument, so this is the budget it
runs with. -/
def LoopLimit.default_limit : Nat := 1000

deriving instance DecidableEq for Except

/-- `LoopLimit.count` (src/sublime_helpers.py lines 349-353): decrement
the counter; once it reaches zero, raise (here: return the error). -/
def LoopLimit.count (counter : Nat) : Except String Nat :=
  if counter - 1 = 0 then Except.error LoopLimit.message
  else Except.ok (counter - 1)

/-- The acceptance test of the scan inside `closest_visible`
(src/sublime_helpers.py lines 158-167): the region is fully inside the
viewport, or (forward) the viewport's begin is at/before the region's
begin, or (inverted) the viewport's end is at/before the region's end. -/
def closest_cond (visible_region : Region) (inverted : Bool) (r : Region) : Bool :=
  visible_region.contains r
    || (!inverted && decide (visible_region.begin ≤ r.begin))
    || (inverted && decide (visible_region.stop ≤ r.stop))

/-- The `for region in selection` scan of `closest_visible`: the first
element passing `closest_cond`, if any. -/
def closest_scan (visible_region : Region) (inverted : Bool) : List Region → Option Region
  | [] => none
  | r :: rest =>
    if closest_cond visible_region inverted r then some r
    else closest_scan visible_region inverted rest

/-- `closest_visible(selection, visible_region=None, inverted=False)`
(src/sublime_helpers.py lines 142-170): `None` on an empty selection; the
first element when there is no viewport or a single candidate; otherwise
the first element accepted by the scan, falling back to the first
element. -/
def closest_visible (selection : List Region) (visible_region : Option Region)
    (inverted : Bool) : Option Region :=
  match selection with
  | [] => none
  | first :: rest =>
    match visible_region with
    | none => some first
    | some vr =>
      if rest.isEmpty then some first
      else
        match closest_scan vr inverted (first :: rest) with
        | some r => some r
        | none => some first

/-- Stage-1 condition of the merge loop (src/sublime_helpers.py lines
236-241): the front match is stale and must be dropped.  Forward compares
begins (`cursors[0].begin() >= matches[0].begin()`), inverted compares
ends (`cursors[0].end() <= matches[0].end()`). -/
def stale_cond (inverted : Bool) (c m : Region) : Bool :=
  (!inverted && decide (m.begin ≤ c.begin)) || (inverted && decide (c.stop ≤ m.stop))

/-- Stage-3 condition of the merge loop (src/sublime_helpers.py lines
258-261): the front cursor jumps to the front match.  Forward:
`cursors[0].begin() <= matches[0].begin()`; inverted:
`cursors[0].end() >= matches[0].end()`. -/
def consume_cond (inverted : Bool) (c m : Region) : Bool :=
  (!inverted && decide (c.begin ≤ m.begin)) || (inverted && decide (m.stop ≤ c.stop))

/-- Stage 1 (src/sublime_helpers.py lines 235-245):
`while len(matches) and stale: limit.count(); matches.pop(0)`.
Returns the remaining budget and remaining matches, or the raised
`LoopLimit` error. -/
def drop_stale (inverted : Bool) (c : Region) : Nat → List Region →
    Except String (Nat × List Region)
  | counter, [] => Except.ok (counter, [])
  | counter, m :: ms =>
    if stale_cond inverted c m then
      match LoopLimit.count counter with
      | Except.error e => Except.error e
      | Except.ok n => drop_stale inverted c n ms
    else Except.ok (counter, m :: ms)

/-- Stage 3 (src/sublime_helpers.py lines 255-269):
`while len(cursors) and cond: limit.count(); if cursors[0] ==
visible_cursor: was_visible = True; replaced_cursors.append(cursors.pop(0))`.
Returns the remaining budget, whether the visible cursor was consumed, the
consumed batch (in order) and the remaining cursors. -/
def consume (inverted : Bool) (m visible_cursor : Region) : Nat → List Region →
    Except String (Nat × Bool × List Region × List Region)
  | counter, [] => Except.ok (counter, false, [], [])
  | counter, c :: cs =>
    if consume_cond inverted c m then
      match LoopLimit.count counter with
      | Except.error e => Except.error e
      | Except.ok n =>
        match consume inverted m visible_cursor n cs with
        | Except.error e => Except.error e
        | Except.ok (k, wv, replaced, rest) =>
          Except.ok (k, wv || decide (c = visible_cursor), c :: replaced, rest)
    else Except.ok (counter, false, [], c :: cs)

/-- Outcome of one iteration of the outer merge loop. -/
inductive StepResult where
  | abort : String → StepResult
  | wrap : List Region → Bool → StepResult
  | batch : List Region → Region → Bool → Nat → List Region → List Region → StepResult
deriving DecidableEq, Repr

/-- One iteration of the outer `while len(matches) and len(cursors)` loop
of `cursor_to_matches` (src/sublime_helpers.py lines 232-276): count,
stage 1 (drop stale matches), stage 2 (wrap when the matches ran out),
stage 3 (consume the batch of cursors for the front match).

`abort e`: the `LoopLimit` raised `e`.
`wrap cs vis`: the matches ran out; `cs` are the cursors that fold into
the single wrap assignment and `vis` its visibility
(`visible_cursor in cursors`, line 252).
`batch replaced m vis k2 ms' cs'`: the batch `replaced` jumps to the front
match `m` with visibility `vis`; the loop continues with budget `k2`,
matches `ms'` (whose front is `m` — stage 3 does not pop matches) and
cursors `cs'`. -/
def merge_step (inverted : Bool) (visible_cursor : Region) (counter : Nat)
    (m₀ : Region) (ms₀ : List Region) (c₀ : Region) (cs₀ : List Region) : StepResult :=
  match LoopLimit.count counter with
  | Except.error e => StepResult.abort e
  | Except.ok n =>
    match drop_stale inverted c₀ n (m₀ :: ms₀) with
    | Except.error e => StepResult.abort e
    | Except.ok (k, matches2) =>
      match matches2 with
      | [] => StepResult.wrap (c₀ :: cs₀) (decide (visible_cursor ∈ c₀ :: cs₀))
      | m :: ms =>
        match consume inverted m visible_cursor k (c₀ :: cs₀) with
        | Except.error e => StepResult.abort e
        | Except.ok (k2, was_visible, replaced, cursors2) =>
          StepResult.batch replaced m was_visible k2 (m :: ms) cursors2

/-- The outer merge loop of `cursor_to_matches` (src/sublime_helpers.py
lines 232-276), as a function from the loop state to the list of yielded
`CursorMatch`es plus the optionally raised error.  `counter` is the live
`LoopLimit` budget.  `fuel` is an upper bound on the number of outer
iterations, present only to make the recursion structural: every
iteration consumes at least one unit of budget, so along every reachable
computation `counter ≤ fuel`, and when `fuel = 0` the loop is about to
fail its `LoopLimit.count` anyway; the `fuel = 0` branch returns exactly
that error.  `merge_loop_fuel_irrelevant` below proves the fuel is
semantically inert whenever `counter ≤ fuel`. -/
def merge_loop (inverted : Bool) (visible_cursor loop_match : Region) :
    Nat → Nat → List Region → List Region → List CursorMatch × Option String
  | _, _, [], _ => ([], none)
  | _, _, _ :: _, [] => ([], none)
  | 0, _, _ :: _, _ :: _ => ([], some LoopLimit.message)
  | fuel + 1, counter, m₀ :: ms₀, c₀ :: cs₀ =>
    match merge_step inverted visible_cursor counter m₀ ms₀ c₀ cs₀ with
    | StepResult.abort e => ([], some e)
    | StepResult.wrap _ vis => ([CursorMatch.mk none (some loop_match) vis], none)
    | StepResult.batch replaced m vis k2 ms' cs' =>
      let rest := merge_loop inverted visible_cursor loop_match fuel k2 ms' cs'
      (CursorMatch.mk replaced.head? (some m) vis :: rest.1, rest.2)

/-- `cursor_to_matches(cursors, matches, viewport, inverted,
find_visible_only)` (src/sublime_helpers.py lines 184-276), with the
generator modelled as (yielded assignments, optionally raised error).
The Python code checks `len(matches) == 0` before reversing; reversal
preserves emptiness, so the check is made here on the direction-ordered
list, whose head is then `loop_match` (`matches[0]`, line 223).  The
`none` branch after `closest_visible` is unreachable (the list passed is
non-empty, see `closest_visible_ne_none`); Python would crash there, which
the error value records. -/
def cursor_to_matches (cursors matchlist : List Region) (viewport : Option Region)
    (inverted : Bool) (find_visible_only : Bool) : List CursorMatch × Option String :=
  match (if inverted then matchlist.reverse else matchlist) with
  | [] => ([], none)
  | loop_match :: dmatches =>
    match (if inverted then cursors.reverse else cursors) with
    | [] =>
      ([CursorMatch.mk none
          (closest_visible (loop_match :: dmatches) viewport inverted) true], none)
    | c :: cs =>
      match closest_visible (c :: cs) viewport inverted with
      | none => ([], some "unreachable: closest_visible of a non-empty list")
      | some visible_cursor =>
        let working := if find_visible_only then [visible_cursor] else c :: cs
        merge_loop inverted visible_cursor loop_match
          LoopLimit.default_limit LoopLimit.default_limit
          (loop_match :: dmatches) working

/-- Instrumented yield: a `CursorMatch` together with the whole consumed
batch (stage-3 yield) resp. the whole list of cursors folded into the
wrap (stage-2 yield).  `merge_loop_batched` is `merge_loop` with this
instrumentation; `merge_loop_project` proves that projecting the
instrumentation away gives `merge_loop` back exactly. -/
inductive BYield where
  | batch : List Region → Region → Bool → BYield
  | wrap : List Region → Region → Bool → BYield
deriving DecidableEq, Repr

/-- The cursors accounted for by one instrumented yield. -/
def BYield.covered : BYield → List Region
  | BYield.batch replaced _ _ => replaced
  | BYield.wrap covered _ _ => covered

/-- Forgetting the instrumentation gives the `CursorMatch` the real code
yields at the same point. -/
def BYield.project : BYield → CursorMatch
  | BYield.batch replaced m vis => CursorMatch.mk replaced.head? (some m) vis
  | BYield.wrap _ m vis => CursorMatch.mk none (some m) vis

/-- `merge_loop` instrumented with the consumed batches (same control
flow, same budget accounting; only the yielded values are richer). -/
def merge_loop_batched (inverted : Bool) (visible_cursor loop_match : Region) :
    Nat → Nat → List Region → List Region → List BYield × Option String
  | _, _, [], _ => ([], none)
  | _, _, _ :: _, [] => ([], none)
  | 0, _, _ :: _, _ :: _ => ([], some LoopLimit.message)
  | fuel + 1, counter, m₀ :: ms₀, c₀ :: cs₀ =>
    match merge_step inverted visible_cursor counter m₀ ms₀ c₀ cs₀ with
    | StepResult.abort e => ([], some e)
    | StepResult.wrap covered vis => ([BYield.wrap covered loop_match vis], none)
    | StepResult.batch replaced m vis k2 ms' cs' =>
      let rest := merge_loop_batched inverted visible_cursor loop_match fuel k2 ms' cs'
      (BYield.batch replaced m vis :: rest.1, rest.2)

/-- `cursor_to_matches` instrumented with the consumed batches.  Only used
for non-empty cursor lists; the empty-cursors branch (which consumes no
cursor) returns no instrumented yields. -/
def cursor_to_matches_batched (cursors matchlist : List Region) (viewport : Option Region)
    (inverted : Bool) (find_visible_only : Bool) : List BYield × Option String :=
  match (if inverted then matchlist.reverse else matchlist) with
  | [] => ([], none)
  | loop_match :: dmatches =>
    match (if inverted then cursors.reverse else cursors) with
    | [] => ([], none)
    | c :: cs =>
      match closest_visible (c :: cs) viewport inverted with
      | none => ([], some "unreachable: closest_visible of a non-empty list")
      | some visible_cursor =>
        let working := if find_visible_only then [visible_cursor] else c :: cs
        merge_loop_batched inverted visible_cursor loop_match
          LoopLimit.default_limit LoopLimit.default_limit
          (loop_match :: dmatches) working

/-- Number of yielded assignments flagged `is_visible`. -/
def countVisible (l : List CursorMatch) : Nat :=
  (l.filter fun a => a.is_visible).length

/-- Non-overlap of two ranges as the repository documents it:
`a.end ≤ b.begin` or `b.end ≤ a.begin`. -/
def Region.nonoverlap (a b : Region) : Prop :=
  a.stop ≤ b.begin ∨ b.stop ≤ a.begin

instance (a b : Region) : Decidable (a.nonoverlap b) :=
  inferInstanceAs (Decidable (_ ∨ _))

/-- The documented caller invariant, transported to a direction-ordered
working cursor list: sorted by `begin` in the processing direction,
pairwise non-overlapping, every region well-formed. -/
def CursorInvariant (inverted : Bool) (cs : List Region) : Prop :=
  cs.Pairwise (fun a b => if inverted then b.begin ≤ a.begin else a.begin ≤ b.begin)
    ∧ cs.Pairwise Region.nonoverlap
    ∧ ∀ r ∈ cs, r.begin ≤ r.stop

/-- Reflection of a region through the interval `[0, n]`: the image of
the region under the buffer mirror `x ↦ n - x`. -/
def Region.mirror (n : Nat) (r : Region) : Region :=
  Region.mk (n - r.stop) (n - r.begin)

/-- `r` is a well-formed region inside the buffer `[0, n]`. -/
def Region.wfIn (n : Nat) (r : Region) : Prop :=
  r.begin ≤ r.stop ∧ r.stop ≤ n

instance (n : Nat) (r : Region) : Decidable (r.wfIn n) :=
  inferInstanceAs (Decidable (_ ∧ _))

/-- Pointwise reflection of an assignment. -/
def CursorMatch.mirror (n : Nat) (a : CursorMatch) : CursorMatch :=
  CursorMatch.mk (a.orig.map (Region.mirror n)) (a.region.map (Region.mirror n))
    a.is_visible

/-- Pointwise reflection of a loop-iteration outcome. -/
def StepResult.mirror (n : Nat) : StepResult → StepResult
  | StepResult.abort e => StepResult.abort e
  | StepResult.wrap cov vis => StepResult.wrap (cov.map (Region.mirror n)) vis
  | StepResult.batch r m vis k2 ms' cs' =>
      StepResult.batch (r.map (Region.mirror n)) (m.mirror n) vis k2
        (ms'.map (Region.mirror n)) (cs'.map (Region.mirror n))

/-! ### Basic facts about the budget and the two inner loops -/

theorem LoopLimit.count_ok {counter n : Nat} (h : LoopLimit.count counter = Except.ok n) :
    n = counter - 1 ∧ 2 ≤ counter := by
  unfold LoopLimit.count at h
  split at h
  · cases h
  · rename_i h0
    simp only [Except.ok.injEq] at h
    omega

theorem LoopLimit.count_ok_lt {counter n : Nat} (h : LoopLimit.count counter = Except.ok n) :
    n < counter := by
  obtain ⟨rfl, h2⟩ := LoopLimit.count_ok h
  omega

theorem drop_stale_ok {inv : Bool} {c : Region} {ms : List Region} :
    ∀ {n k : Nat} {ms' : List Region},
    drop_stale inv c n ms = Except.ok (k, ms') →
    k ≤ n ∧ ms' <:+ ms ∧ ∀ m ms2, ms' = m :: ms2 → stale_cond inv c m = false := by
  induction ms with
  | nil =>
    intro n k ms' h
    simp only [drop_stale, Except.ok.injEq, Prod.mk.injEq] at h
    obtain ⟨rfl, rfl⟩ := h
    exact ⟨le_refl _, List.suffix_refl _, by intro m ms2 h; cases h⟩
  | cons m ms ih =>
    intro n k ms' h
    simp only [drop_stale] at h
    split at h
    · split at h
      · cases h
      · rename_i n' hcount
        obtain ⟨h1, h2, h3⟩ := ih h
        exact ⟨le_trans h1 (le_of_lt (LoopLimit.count_ok_lt hcount)),
          h2.trans (List.suffix_cons m ms), h3⟩
    · rename_i hcond
      simp only [Except.ok.injEq, Prod.mk.injEq] at h
      obtain ⟨rfl, rfl⟩ := h
      refine ⟨le_refl _, List.suffix_refl _, ?_⟩
      intro m1 ms2 heq
      cases heq
      simpa using hcond

theorem consume_ok {inv : Bool} {m vc : Region} {cs : List Region} :
    ∀ {n k2 : Nat} {wv : Bool} {replaced rest : List Region},
    consume inv m vc n cs = Except.ok (k2, wv, replaced, rest) →
    k2 ≤ n ∧ replaced ++ rest = cs ∧ (wv = true ↔ vc ∈ replaced) ∧
      (∀ x ∈ replaced, consume_cond inv x m = true) ∧
      (rest = [] ∨ ∃ h1 t, rest = h1 :: t ∧ consume_cond inv h1 m = false) := by
  induction cs with
  | nil =>
    intro n k2 wv replaced rest h
    simp only [consume, Except.ok.injEq, Prod.mk.injEq] at h
    obtain ⟨rfl, rfl, rfl, rfl⟩ := h
    simp
  | cons c cs ih =>
    intro n k2 wv replaced rest h
    simp only [consume] at h
    split at h
    · rename_i hcond
      split at h
      · cases h
      · rename_i n' hcount
        split at h
        · cases h
        · rename_i k' wv' replaced' rest' hrec
          simp only [Except.ok.injEq, Prod.mk.injEq] at h
          obtain ⟨rfl, rfl, rfl, rfl⟩ := h
          obtain ⟨i1, i2, i3, i4, i5⟩ := ih hrec
          refine ⟨le_trans i1 (le_of_lt (LoopLimit.count_ok_lt hcount)),
            by rw [← i2]; rfl, ?_, ?_, i5⟩
          · constructor
            · intro hw
              rcases Bool.or_eq_true_iff.mp hw with hw | hw
              · exact List.mem_cons_of_mem _ (i3.mp hw)
              · exact (of_decide_eq_true hw) ▸ List.mem_cons_self _ _
            · intro hmem
              rcases List.mem_cons.mp hmem with rfl | hmem
              · simp
              · simp [i3.mpr hmem]
          · intro x hx
            rcases List.mem_cons.mp hx with rfl | hx
            · exact hcond
            · exact i4 x hx
    · rename_i hcond
      simp only [Except.ok.injEq, Prod.mk.injEq] at h
      obtain ⟨rfl, rfl, rfl, rfl⟩ := h
      refine ⟨le_refl _, rfl, by simp, by simp, Or.inr ⟨c, cs, rfl, ?_⟩⟩
      simpa using hcond

theorem consume_head {inv : Bool} {m vc c : Region} {cs : List Region} {n k2 : Nat}
    {wv : Bool} {replaced rest : List Region}
    (hc : consume_cond inv c m = true)
    (h : consume inv m vc n (c :: cs) = Except.ok (k2, wv, replaced, rest)) :
    ∃ r', replaced = c :: r' := by
  simp only [consume, hc, if_true] at h
  split at h
  · cases h
  · split at h
    · cases h
    · rename_i k' wv' replaced' rest' hrec
      simp only [Except.ok.injEq, Prod.mk.injEq] at h
      obtain ⟨rfl, rfl, rfl, rfl⟩ := h
      exact ⟨replaced', rfl⟩

theorem stale_false_consume_true {inv : Bool} {c m : Region}
    (h : stale_cond inv c m = false) : consume_cond inv c m = true := by
  cases inv <;> simp [stale_cond, consume_cond] at * <;> omega

/-! ### Characterisation of one outer-loop iteration -/

theorem merge_step_wrap {inv : Bool} {vc : Region} {counter : Nat} {m₀ c₀ : Region}
    {ms₀ cs₀ covered : List Region} {vis : Bool}
    (h : merge_step inv vc counter m₀ ms₀ c₀ cs₀ = StepResult.wrap covered vis) :
    covered = c₀ :: cs₀ ∧ vis = decide (vc ∈ c₀ :: cs₀) := by
  unfold merge_step at h
  split at h
  · cases h
  · split at h
    · cases h
    · split at h
      · simp only [StepResult.wrap.injEq] at h
        exact ⟨h.1.symm, h.2.symm⟩
      · split at h
        · cases h
        · cases h

theorem merge_step_batch {inv : Bool} {vc : Region} {counter : Nat} {m₀ c₀ m : Region}
    {ms₀ cs₀ replaced ms' cs' : List Region} {vis : Bool} {k2 : Nat}
    (h : merge_step inv vc counter m₀ ms₀ c₀ cs₀ = StepResult.batch replaced m vis k2 ms' cs') :
    ∃ n k ms2, LoopLimit.count counter = Except.ok n ∧
      drop_stale inv c₀ n (m₀ :: ms₀) = Except.ok (k, m :: ms2) ∧
      ms' = m :: ms2 ∧
      consume inv m vc k (c₀ :: cs₀) = Except.ok (k2, vis, replaced, cs') := by
  unfold merge_step at h
  split at h
  · cases h
  · rename_i n hcount
    split at h
    · cases h
    · rename_i p k matches2 hdrop
      split at h
      · cases h
      · rename_i m1 ms1
        split at h
        · cases h
        · rename_i k2' wv' replaced' cursors2 hcon
          simp only [StepResult.batch.injEq] at h
          obtain ⟨rfl, rfl, rfl, rfl, rfl, rfl⟩ := h
          exact ⟨n, k, ms1, hcount, hdrop, rfl, hcon⟩

theorem merge_step_batch_lt {inv : Bool} {vc : Region} {counter : Nat} {m₀ c₀ m : Region}
    {ms₀ cs₀ replaced ms' cs' : List Region} {vis : Bool} {k2 : Nat}
    (h : merge_step inv vc counter m₀ ms₀ c₀ cs₀ = StepResult.batch replaced m vis k2 ms' cs') :
    k2 < counter ∧ k2 ≤ counter - 1 := by
  obtain ⟨n, k, ms2, hcount, hdrop, _, hcon⟩ := merge_step_batch h
  have h1 := (consume_ok hcon).1
  have h2 := (drop_stale_ok hdrop).1
  obtain ⟨rfl, h4⟩ := LoopLimit.count_ok hcount
  omega

theorem merge_step_counter_zero {inv : Bool} {vc : Region} {m₀ c₀ : Region}
    {ms₀ cs₀ : List Region} :
    merge_step inv vc 0 m₀ ms₀ c₀ cs₀ = StepResult.abort LoopLimit.message := by
  unfold merge_step LoopLimit.count
  simp

/-! ### Facts about `closest_visible` -/

theorem closest_scan_eq_find? (vr : Region) (inv : Bool) :
    ∀ l : List Region, closest_scan vr inv l = l.find? (closest_cond vr inv) := by
  intro l
  induction l with
  | nil => rfl
  | cons r rest ih =>
    by_cases hc : closest_cond vr inv r = true
    · simp [closest_scan, hc, List.find?_cons_of_pos]
    · simp only [Bool.not_eq_true] at hc
      simp [closest_scan, hc, List.find?_cons_of_neg, ih]

theorem closest_scan_mem {vr : Region} {inv : Bool} {l : List Region} {v : Region}
    (h : closest_scan vr inv l = some v) : v ∈ l := by
  rw [closest_scan_eq_find?] at h
  exact List.mem_of_find?_eq_some h

theorem closest_visible_mem {l : List Region} {vp : Option Region} {inv : Bool} {v : Region}
    (h : closest_visible l vp inv = some v) : v ∈ l := by
  cases l with
  | nil => cases h
  | cons first rest =>
    cases vp with
    | none =>
      simp only [closest_visible, Option.some.injEq] at h
      exact h ▸ List.mem_cons_self _ _
    | some vr =>
      simp only [closest_visible] at h
      split at h
      · simp only [Option.some.injEq] at h
        exact h ▸ List.mem_cons_self _ _
      · split at h
        · rename_i r hscan
          simp only [Option.some.injEq] at h
          exact h ▸ closest_scan_mem hscan
        · simp only [Option.some.injEq] at h
          exact h ▸ List.mem_cons_self _ _

theorem closest_visible_ne_none (a : Region) (l : List Region) (vp : Option Region)
    (inv : Bool) : closest_visible (a :: l) vp inv ≠ none := by
  cases vp with
  | none => simp [closest_visible]
  | some vr =>
    simp only [closest_visible]
    split
    · simp
    · split <;> simp

/-! ### The fuel parameter of `merge_loop` is semantically inert -/

theorem merge_loop_fuel_irrelevant {inv : Bool} {vc lm : Region} :
    ∀ (fuel fuel' counter : Nat) (ms cs : List Region), counter ≤ fuel → counter ≤ fuel' →
    merge_loop inv vc lm fuel counter ms cs = merge_loop inv vc lm fuel' counter ms cs := by
  intro fuel
  induction fuel with
  | zero =>
    intro fuel' counter ms cs h1 h2
    obtain rfl : counter = 0 := Nat.le_zero.mp h1
    cases ms with
    | nil => cases fuel' <;> rfl
    | cons m₀ ms₀ =>
      cases cs with
      | nil => cases fuel' <;> rfl
      | cons c₀ cs₀ =>
        cases fuel' with
        | zero => rfl
        | succ g => simp [merge_loop, merge_step_counter_zero]
  | succ f ih =>
    intro fuel' counter ms cs h1 h2
    cases ms with
    | nil => cases fuel' <;> rfl
    | cons m₀ ms₀ =>
      cases cs with
      | nil => cases fuel' <;> rfl
      | cons c₀ cs₀ =>
        cases fuel' with
        | zero =>
          obtain rfl : counter = 0 := Nat.le_zero.mp h2
          simp [merge_loop, merge_step_counter_zero]
        | succ g =>
          simp only [merge_loop]
          cases hstep : merge_step inv vc counter m₀ ms₀ c₀ cs₀ with
          | abort e => rfl
          | wrap cov vis => rfl
          | batch replaced m vis k2 ms' cs' =>
            have hk := (merge_step_batch_lt hstep).2
            dsimp only
            rw [ih g k2 ms' cs' (by omega) (by omega)]

/-! ### Projection: the instrumented loop computes the real loop -/

theorem merge_loop_project {inv : Bool} {vc lm : Region} :
    ∀ (fuel counter : Nat) (ms cs : List Region),
    merge_loop inv vc lm fuel counter ms cs =
      ((merge_loop_batched inv vc lm fuel counter ms cs).1.map BYield.project,
       (merge_loop_batched inv vc lm fuel counter ms cs).2) := by
  intro fuel
  induction fuel with
  | zero =>
    intro counter ms cs
    cases ms with
    | nil => rfl
    | cons m₀ ms₀ => cases cs <;> rfl
  | succ f ih =>
    intro counter ms cs
    cases ms with
    | nil => rfl
    | cons m₀ ms₀ =>
      cases cs with
      | nil => rfl
      | cons c₀ cs₀ =>
        simp only [merge_loop, merge_loop_batched]
        cases hstep : merge_step inv vc counter m₀ ms₀ c₀ cs₀ with
        | abort e => rfl
        | wrap cov vis => rfl
        | batch replaced m vis k2 ms' cs' =>
          dsimp only
          rw [ih k2 ms' cs']
          simp [BYield.project]

/-! ### Coverage: every cursor lands in exactly one instrumented yield -/

theorem merge_loop_batched_covered {inv : Bool} {vc lm : Region} :
    ∀ (fuel counter : Nat) (ms cs : List Region) (l : List BYield), ms ≠ [] →
    merge_loop_batched inv vc lm fuel counter ms cs = (l, none) →
    (l.map BYield.covered).flatten = cs := by
  intro fuel
  induction fuel with
  | zero =>
    intro counter ms cs l hm h
    cases ms with
    | nil => exact absurd rfl hm
    | cons m₀ ms₀ =>
      cases cs with
      | nil =>
        simp only [merge_loop_batched, Prod.mk.injEq] at h
        rw [← h.1]
        simp
      | cons c₀ cs₀ => simp only [merge_loop_batched, Prod.mk.injEq] at h; cases h.2
  | succ f ih =>
    intro counter ms cs l hm h
    cases ms with
    | nil => exact absurd rfl hm
    | cons m₀ ms₀ =>
      cases cs with
      | nil =>
        simp only [merge_loop_batched, Prod.mk.injEq] at h
        simp [← h.1]
      | cons c₀ cs₀ =>
        simp only [merge_loop_batched] at h
        cases hstep : merge_step inv vc counter m₀ ms₀ c₀ cs₀ with
        | abort e => rw [hstep] at h; dsimp only at h; simp only [Prod.mk.injEq] at h; cases h.2
        | wrap cov vis =>
          rw [hstep] at h
          dsimp only at h
          simp only [Prod.mk.injEq] at h
          obtain ⟨hcov, -⟩ := merge_step_wrap hstep
          rw [← h.1]
          simp [BYield.covered, hcov]
        | batch replaced m vis k2 ms' cs' =>
          rw [hstep] at h
          dsimp only at h
          simp only [Prod.mk.injEq] at h
          obtain ⟨n, k, ms2, hcount, hdrop, hms', hcon⟩ := merge_step_batch hstep
          have happ := (consume_ok hcon).2.1
          have hrec : merge_loop_batched inv vc lm f k2 ms' cs'
              = ((merge_loop_batched inv vc lm f k2 ms' cs').1, none) := by
            rw [← h.2]
          have := ih k2 ms' cs' (merge_loop_batched inv vc lm f k2 ms' cs').1
            (by rw [hms']; simp) hrec
          rw [← h.1]
          simp [BYield.covered, this, happ]

/-! ### Visibility: the consumed batch and the remainder never share a cursor -/

theorem CursorInvariant.of_suffix {inv : Bool} {cs cs' : List Region}
    (h : CursorInvariant inv cs) (hs : cs' <:+ cs) : CursorInvariant inv cs' :=
  ⟨h.1.sublist hs.sublist, h.2.1.sublist hs.sublist,
    fun r hr => h.2.2 r (hs.sublist.mem hr)⟩

theorem countVisible_nil : countVisible [] = 0 := rfl

theorem countVisible_cons (a : CursorMatch) (l : List CursorMatch) :
    countVisible (a :: l) = (if a.is_visible then 1 else 0) + countVisible l := by
  simp only [countVisible, List.filter_cons]
  split <;> simp [Nat.add_comm]

theorem consume_no_split {inv : Bool} {m vc : Region} {cs : List Region} {n k2 : Nat}
    {wv : Bool} {replaced rest : List Region} {v : Region}
    (hinv : CursorInvariant inv cs)
    (h : consume inv m vc n cs = Except.ok (k2, wv, replaced, rest))
    (hv1 : v ∈ replaced) (hv2 : v ∈ rest) : False := by
  obtain ⟨-, happ, -, hall, hstop⟩ := consume_ok h
  obtain ⟨hsort, hnov, hwf⟩ := hinv
  rw [← happ] at hsort hnov hwf
  rw [List.pairwise_append] at hsort hnov
  rcases hstop with rfl | ⟨h1, t, rfl, hfail⟩
  · cases hv2
  · have hvcond : consume_cond inv v m = true := hall v hv1
    rcases List.mem_cons.mp hv2 with rfl | hvt
    · rw [hvcond] at hfail; cases hfail
    · -- v sits both in the batch and behind the first unconsumed cursor h1
      have hR1 : (fun a b => if inv then b.begin ≤ a.begin else a.begin ≤ b.begin) v h1 :=
        hsort.2.2 v hv1 h1 (List.mem_cons_self _ _)
      have hR2 : (fun a b => if inv then b.begin ≤ a.begin else a.begin ≤ b.begin) h1 v :=
        (List.pairwise_cons.mp hsort.2.1).1 v hvt
      have hO : Region.nonoverlap v v := hnov.2.2 v hv1 v hv2
      have hwfv : v.begin ≤ v.stop := hwf v (List.mem_append_left _ hv1)
      have hwfh : h1.begin ≤ h1.stop :=
        hwf h1 (List.mem_append_right _ (List.mem_cons_self _ _))
      cases inv with
      | false =>
        simp [consume_cond] at hR1 hR2 hvcond hfail
        omega
      | true =>
        simp [consume_cond] at hR1 hR2 hvcond hfail
        rcases hO with hO | hO <;> omega

/-! ### Exactly one visible assignment out of the merge loop -/

theorem merge_loop_visible_count {inv : Bool} {vc lm : Region} :
    ∀ (fuel counter : Nat) (ms cs : List Region) (l : List CursorMatch),
    CursorInvariant inv cs →
    merge_loop inv vc lm fuel counter ms cs = (l, none) →
    countVisible l = if ms ≠ [] ∧ vc ∈ cs then 1 else 0 := by
  intro fuel
  induction fuel with
  | zero =>
    intro counter ms cs l hinv h
    cases ms with
    | nil =>
      simp only [merge_loop, Prod.mk.injEq] at h
      rw [← h.1]
      simp [countVisible_nil]
    | cons m₀ ms₀ =>
      cases cs with
      | nil =>
        simp only [merge_loop, Prod.mk.injEq] at h
        rw [← h.1]
        simp [countVisible_nil]
      | cons c₀ cs₀ => simp only [merge_loop, Prod.mk.injEq] at h; cases h.2
  | succ f ih =>
    intro counter ms cs l hinv h
    cases ms with
    | nil =>
      simp only [merge_loop, Prod.mk.injEq] at h
      rw [← h.1]
      simp [countVisible_nil]
    | cons m₀ ms₀ =>
      cases cs with
      | nil =>
        simp only [merge_loop, Prod.mk.injEq] at h
        rw [← h.1]
        simp [countVisible_nil]
      | cons c₀ cs₀ =>
        simp only [merge_loop] at h
        cases hstep : merge_step inv vc counter m₀ ms₀ c₀ cs₀ with
        | abort e => rw [hstep] at h; dsimp only at h; simp only [Prod.mk.injEq] at h; cases h.2
        | wrap cov vis =>
          rw [hstep] at h
          dsimp only at h
          simp only [Prod.mk.injEq] at h
          obtain ⟨-, hvis⟩ := merge_step_wrap hstep
          rw [← h.1, hvis]
          by_cases hmem : vc ∈ c₀ :: cs₀ <;>
            simp [countVisible_cons, countVisible_nil, hmem]
        | batch replaced m vis k2 ms' cs' =>
          rw [hstep] at h
          dsimp only at h
          simp only [Prod.mk.injEq] at h
          obtain ⟨n, k, ms2, hcount, hdrop, hms', hcon⟩ := merge_step_batch hstep
          have happ := (consume_ok hcon).2.1
          have hwviff := (consume_ok hcon).2.2.1
          have hrec : merge_loop inv vc lm f k2 ms' cs'
              = ((merge_loop inv vc lm f k2 ms' cs').1, none) := by
            rw [← h.2]
          have hinv' : CursorInvariant inv cs' :=
            hinv.of_suffix ⟨replaced, happ⟩
          have hcount' := ih k2 ms' cs' (merge_loop inv vc lm f k2 ms' cs').1 hinv' hrec
          rw [← h.1, countVisible_cons, hcount']
          have hmem_split : vc ∈ c₀ :: cs₀ ↔ vc ∈ replaced ∨ vc ∈ cs' := by
            rw [← happ]; exact List.mem_append
          have hnosplit : ¬(vc ∈ replaced ∧ vc ∈ cs') := by
            rintro ⟨h1, h2⟩
            exact consume_no_split hinv hcon h1 h2
          have hms'ne : ms' ≠ [] := by rw [hms']; simp
          by_cases hvr : vc ∈ replaced
          · have hv : vis = true := hwviff.mpr hvr
            have hnr : ¬ vc ∈ cs' := fun hc => hnosplit ⟨hvr, hc⟩
            simp [hv, hms'ne, hnr, hmem_split.mpr (Or.inl hvr)]
          · have hv : vis = false := by
              cases hb : vis
              · rfl
              · exact absurd (hwviff.mp hb) hvr
            by_cases hvc' : vc ∈ cs'
            · simp [hv, hms'ne, hvc', hmem_split.mpr (Or.inr hvc')]
            · have : ¬ vc ∈ c₀ :: cs₀ := by
                rw [hmem_split]
                rintro (hx | hx)
                · exact hvr hx
                · exact hvc' hx
              simp [hv, hvc', this]

/-! ### Unfolding the preamble of `cursor_to_matches` -/

theorem cursor_to_matches_cons {cursors matchlist : List Region} {vp : Option Region}
    {inverted fvo : Bool} {lm c vc : Region} {dms cs : List Region}
    (hdm : (if inverted then matchlist.reverse else matchlist) = lm :: dms)
    (hdc : (if inverted then cursors.reverse else cursors) = c :: cs)
    (hvc : closest_visible (c :: cs) vp inverted = some vc) :
    cursor_to_matches cursors matchlist vp inverted fvo =
      merge_loop inverted vc lm LoopLimit.default_limit LoopLimit.default_limit
        (lm :: dms) (if fvo then [vc] else c :: cs) := by
  unfold cursor_to_matches
  rw [hdm]
  dsimp only
  rw [hdc]
  dsimp only
  rw [hvc]

theorem cursor_to_matches_batched_cons {cursors matchlist : List Region} {vp : Option Region}
    {inverted fvo : Bool} {lm c vc : Region} {dms cs : List Region}
    (hdm : (if inverted then matchlist.reverse else matchlist) = lm :: dms)
    (hdc : (if inverted then cursors.reverse else cursors) = c :: cs)
    (hvc : closest_visible (c :: cs) vp inverted = some vc) :
    cursor_to_matches_batched cursors matchlist vp inverted fvo =
      merge_loop_batched inverted vc lm LoopLimit.default_limit LoopLimit.default_limit
        (lm :: dms) (if fvo then [vc] else c :: cs) := by
  unfold cursor_to_matches_batched
  rw [hdm]
  dsimp only
  rw [hdc]
  dsimp only
  rw [hvc]

theorem direction_nil_iff (inverted : Bool) (l : List Region) :
    (if inverted then l.reverse else l) = [] ↔ l = [] := by
  cases inverted <;> simp

theorem direction_mem {inverted : Bool} {l : List Region} {r : Region} :
    r ∈ (if inverted then l.reverse else l) ↔ r ∈ l := by
  cases inverted <;> simp

/-! ### A single working cursor produces at most one assignment -/

theorem merge_loop_singleton (inv : Bool) (vc lm : Region) :
    ∀ (fuel counter : Nat) (ms : List Region),
    (merge_loop inv vc lm fuel counter ms [vc]).1.length ≤ 1 ∧
    ∀ a ∈ (merge_loop inv vc lm fuel counter ms [vc]).1,
      a.orig = none ∨ a.orig = some vc := by
  intro fuel counter ms
  cases ms with
  | nil => simp [merge_loop]
  | cons m₀ ms₀ =>
    cases fuel with
    | zero => simp [merge_loop]
    | succ f =>
      simp only [merge_loop]
      cases hstep : merge_step inv vc counter m₀ ms₀ vc [] with
      | abort e => simp
      | wrap cov vis => simp
      | batch replaced m vis k2 ms' cs' =>
        obtain ⟨n, k, ms2, hcount, hdrop, hms', hcon⟩ := merge_step_batch hstep
        have hstale := (drop_stale_ok hdrop).2.2 m ms2 rfl
        obtain ⟨r', rfl⟩ := consume_head (stale_false_consume_true hstale) hcon
        have happ := (consume_ok hcon).2.1
        have happ2 : r' ++ cs' = [] := by
          have h0 : vc :: (r' ++ cs') = [vc] := by simpa using happ
          injection h0
        obtain ⟨rfl, rfl⟩ := List.append_eq_nil.mp happ2
        rw [hms']
        simp [merge_loop]

/-! ## Claim theorems -/

/-- C5: `closest_visible(selection, visible_region, inverted)` returns
`none` exactly on an empty selection; returns `selection[0]` when the
viewport is absent or the selection is a singleton; otherwise returns the
first element accepted by the viewport test (`contains`, or the
direction-appropriate begin/end comparison), falling back to
`selection[0]` when the scan exhausts. -/
theorem closest_visible_contract (inverted : Bool) :
    (∀ vp, closest_visible [] vp inverted = none) ∧
    (∀ (a : Region) (l : List Region) (vp : Option Region),
        closest_visible (a :: l) vp inverted ≠ none) ∧
    (∀ (a : Region) (l : List Region), closest_visible (a :: l) none inverted = some a) ∧
    (∀ (a vr : Region), closest_visible [a] (some vr) inverted = some a) ∧
    (∀ (a b : Region) (l : List Region) (vr : Region),
        closest_visible (a :: b :: l) (some vr) inverted =
          some (((a :: b :: l).find? (closest_cond vr inverted)).getD a)) := by
  refine ⟨fun vp => rfl, fun a l vp => closest_visible_ne_none a l vp inverted,
    fun a l => rfl, fun a vr => rfl, fun a b l vr => ?_⟩
  simp only [closest_visible, List.isEmpty_cons, closest_scan_eq_find?]
  cases hf : (a :: b :: l).find? (closest_cond vr inverted) <;> simp [hf]

/-- C6: an empty match list makes `cursor_to_matches` yield nothing and
finish normally (no error), for every cursor list, viewport and flag
combination. -/
theorem empty_matches_empty_output (cursors : List Region) (vp : Option Region)
    (inverted find_visible_only : Bool) :
    cursor_to_matches cursors [] vp inverted find_visible_only = ([], none) := by
  cases inverted <;> rfl

/-- C4: the `LoopLimit` budget.  The class's default limit is 1000 (not
the 10000 its own overflow message advertises), the counter aborts with
the fatal message exactly when the budget is exhausted, and a merge run
that exhausts the budget surfaces the error instead of looping forever
(here: a run with budget 3 performs one full iteration and aborts on the
next). -/
theorem loop_limit_budget :
    LoopLimit.default_limit = 1000 ∧
    LoopLimit.default_limit ≠ 10000 ∧
    LoopLimit.count 1000 = Except.ok 999 ∧
    LoopLimit.count 1 = Except.error LoopLimit.message ∧
    LoopLimit.count 0 = Except.error LoopLimit.message ∧
    merge_loop false (Region.mk 0 0) (Region.mk 1 1) 3 3
        [Region.mk 1 1, Region.mk 3 3] [Region.mk 0 0, Region.mk 2 2]
      = ([CursorMatch.mk (some (Region.mk 0 0)) (some (Region.mk 1 1)) true],
         some LoopLimit.message) := by
  decide

/-- C3: if, inside an iteration of the merge loop, stage 1 exhausts the
match list while cursors remain, the loop yields exactly one final
assignment — no source cursor, target `loop_match` (the head of the
direction-ordered match list, fixed before the loop), visible iff the
visible cursor is among the still-unconsumed cursors — and terminates.
Concretely, point cursor `@50` with matches `@10, @20` (forward) produces
the single assignment `(none, @10, visible)`. -/
theorem wraparound_collapse (inverted : Bool) (vc lm m₀ c₀ : Region)
    (ms₀ cs₀ : List Region) (fuel counter n k : Nat)
    (hcount : LoopLimit.count counter = Except.ok n)
    (hdrop : drop_stale inverted c₀ n (m₀ :: ms₀) = Except.ok (k, [])) :
    merge_loop inverted vc lm (fuel + 1) counter (m₀ :: ms₀) (c₀ :: cs₀)
      = ([CursorMatch.mk none (some lm) (decide (vc ∈ c₀ :: cs₀))], none) ∧
    cursor_to_matches [Region.mk 50 50] [Region.mk 10 10, Region.mk 20 20] none false false
      = ([CursorMatch.mk none (some (Region.mk 10 10)) true], none) := by
  constructor
  · simp [merge_loop, merge_step, hcount, hdrop]
  · decide

/-- Witness for C3: a concrete state whose stage 1 drops both matches, so
that the wrap assignment is the single yield. -/
theorem wraparound_collapse_witness :
    LoopLimit.count 1000 = Except.ok 999 ∧
    drop_stale false (Region.mk 50 50) 999 [Region.mk 10 10, Region.mk 20 20]
      = Except.ok (997, []) ∧
    (merge_loop false (Region.mk 50 50) (Region.mk 10 10) 1 1000
        [Region.mk 10 10, Region.mk 20 20] [Region.mk 50 50]
      = ([CursorMatch.mk none (some (Region.mk 10 10))
            (decide (Region.mk 50 50 ∈ [Region.mk 50 50]))], none) ∧
     cursor_to_matches [Region.mk 50 50] [Region.mk 10 10, Region.mk 20 20] none false false
      = ([CursorMatch.mk none (some (Region.mk 10 10)) true], none)) :=
  ⟨by decide, by decide,
    wraparound_collapse false (Region.mk 50 50) (Region.mk 10 10) (Region.mk 10 10)
      (Region.mk 50 50) [Region.mk 20 20] [] 0 1000 999 997 (by decide) (by decide)⟩

/-- C9: whenever an iteration reaches the batch yield — stage 1 stopped
with the front match still present — the stage-3 while-condition holds for
the front cursor, so the consumed batch is non-empty and starts with the
front cursor; the `None` branch of the batch yield is unreachable. -/
theorem batch_has_source (inverted : Bool) (c m vc : Region)
    (ms ms2 cs replaced rest : List Region) (n k k2 : Nat) (wv : Bool)
    (hdrop : drop_stale inverted c n ms = Except.ok (k, m :: ms2))
    (hcon : consume inverted m vc k (c :: cs) = Except.ok (k2, wv, replaced, rest)) :
    replaced ≠ [] ∧ replaced.head? = some c := by
  have hstale := (drop_stale_ok hdrop).2.2 m ms2 rfl
  obtain ⟨r', rfl⟩ := consume_head (stale_false_consume_true hstale) hcon
  exact ⟨by simp, rfl⟩

/-- Witness for C9: a concrete stage-1 stop followed by a concrete
stage-3 consumption whose batch starts with the front cursor. -/
theorem batch_has_source_witness :
    drop_stale false (Region.mk 5 5) 10 [Region.mk 3 3, Region.mk 10 10]
      = Except.ok (9, [Region.mk 10 10]) ∧
    consume false (Region.mk 10 10) (Region.mk 5 5) 9 [Region.mk 5 5, Region.mk 20 20]
      = Except.ok (8, true, [Region.mk 5 5], [Region.mk 20 20]) ∧
    (([Region.mk 5 5] : List Region) ≠ [] ∧
      ([Region.mk 5 5] : List Region).head? = some (Region.mk 5 5)) :=
  ⟨by decide, by decide,
    batch_has_source false (Region.mk 5 5) (Region.mk 10 10) (Region.mk 5 5)
      [Region.mk 3 3, Region.mk 10 10] [] [Region.mk 20 20] [Region.mk 5 5]
      [Region.mk 20 20] 10 9 8 true (by decide) (by decide)⟩

/-- C8: with `find_visible_only = true` the working cursor list collapses
to the single cursor chosen by `closest_visible`, so the call yields at
most one assignment and every yielded assignment's source is either that
cursor or `None` (the wrap).  This holds for every input, viewport and
direction. -/
theorem preview_narrows (cursors matchlist : List Region) (vp : Option Region)
    (inverted : Bool) :
    (cursor_to_matches cursors matchlist vp inverted true).1.length ≤ 1 ∧
    ∀ a ∈ (cursor_to_matches cursors matchlist vp inverted true).1,
      a.orig = none ∨
      a.orig = closest_visible (if inverted then cursors.reverse else cursors) vp inverted := by
  cases hdm : (if inverted then matchlist.reverse else matchlist) with
  | nil =>
    unfold cursor_to_matches
    rw [hdm]
    simp
  | cons lm dms =>
    cases hdc : (if inverted then cursors.reverse else cursors) with
    | nil =>
      unfold cursor_to_matches
      rw [hdm]
      dsimp only
      rw [hdc]
      simp
    | cons c cs =>
      cases hvc : closest_visible (c :: cs) vp inverted with
      | none => exact absurd hvc (closest_visible_ne_none c cs vp inverted)
      | some vc =>
        rw [cursor_to_matches_cons hdm hdc hvc]
        have h := merge_loop_singleton inverted vc lm
          LoopLimit.default_limit LoopLimit.default_limit (lm :: dms)
        exact ⟨h.1, h.2⟩

/-! ### Exhausting the loop guard -/

theorem consume_overflow {inv : Bool} {m vc : Region} :
    ∀ (n : Nat) (cs : List Region), 1 ≤ n → n ≤ cs.length →
    (∀ r ∈ cs, consume_cond inv r m = true) →
    consume inv m vc n cs = Except.error LoopLimit.message := by
  intro n cs
  induction cs generalizing n with
  | nil => intro h1 h2 _; simp at h2; omega
  | cons c cs ih =>
    intro h1 h2 hall
    have hc : consume_cond inv c m = true := hall c (List.mem_cons_self _ _)
    simp only [consume, hc, if_true]
    by_cases hn : n - 1 = 0
    · simp [LoopLimit.count, hn]
    · have hcount : LoopLimit.count n = Except.ok (n - 1) := by simp [LoopLimit.count, hn]
      rw [hcount]
      dsimp only
      have hrec := ih (n - 1) (by omega) (by simp at h2; omega)
        (fun r hr => hall r (List.mem_cons_of_mem _ hr))
      rw [hrec]

theorem merge_step_abort_of_consume {inv : Bool} {vc : Region} {counter n k : Nat}
    {m₀ c₀ m : Region} {ms₀ ms2 cs₀ : List Region} {e : String}
    (hcount : LoopLimit.count counter = Except.ok n)
    (hdrop : drop_stale inv c₀ n (m₀ :: ms₀) = Except.ok (k, m :: ms2))
    (hcon : consume inv m vc k (c₀ :: cs₀) = Except.error e) :
    merge_step inv vc counter m₀ ms₀ c₀ cs₀ = StepResult.abort e := by
  unfold merge_step
  rw [hcount]
  dsimp only
  rw [hdrop]
  dsimp only
  rw [hcon]

theorem merge_loop_abort {inv : Bool} {vc lm : Region} {fuel counter : Nat}
    {m₀ c₀ : Region} {ms₀ cs₀ : List Region} {e : String}
    (hstep : merge_step inv vc counter m₀ ms₀ c₀ cs₀ = StepResult.abort e) :
    merge_loop inv vc lm (fuel + 1) counter (m₀ :: ms₀) (c₀ :: cs₀) = ([], some e) := by
  simp [merge_loop, hstep]

/-- With at least 999 point cursors (satisfying every documented
precondition) and one match beyond all of them, the default 1000-step
budget is exhausted while stage 3 is consuming the cursors: the call
aborts with the `LoopLimit` error before yielding anything. -/
theorem guard_trip (n b s : Nat) (hn : 999 ≤ n) (hb : n ≤ b) :
    cursor_to_matches ((List.range n).map fun i => Region.mk i i) [Region.mk b s]
        none false false = ([], some LoopLimit.message) := by
  obtain ⟨m, rfl⟩ : ∃ m, n = m + 1 := ⟨n - 1, by omega⟩
  rw [List.range_succ_eq_map, List.map_cons, List.map_map]
  have hdm : (if false then ([Region.mk b s] : List Region).reverse else [Region.mk b s])
      = [Region.mk b s] := rfl
  have hdc : (if false then
        (Region.mk 0 0 :: (List.range m).map ((fun i => Region.mk i i) ∘ Nat.succ)).reverse
      else Region.mk 0 0 :: (List.range m).map ((fun i => Region.mk i i) ∘ Nat.succ))
      = Region.mk 0 0 :: (List.range m).map ((fun i => Region.mk i i) ∘ Nat.succ) := rfl
  have hvc : closest_visible
      (Region.mk 0 0 :: (List.range m).map ((fun i => Region.mk i i) ∘ Nat.succ))
      none false = some (Region.mk 0 0) := rfl
  rw [cursor_to_matches_cons hdm hdc hvc]
  rw [show (LoopLimit.default_limit : Nat) = 999 + 1 from rfl]
  have hcount : LoopLimit.count (999 + 1) = Except.ok 999 := by decide
  have hst : stale_cond false (Region.mk 0 0) (Region.mk b s) = false := by
    simp [stale_cond]
    omega
  have hdrop : drop_stale false (Region.mk 0 0) 999 [Region.mk b s]
      = Except.ok (999, [Region.mk b s]) := by
    simp [drop_stale, hst]
  have hcon : consume false (Region.mk b s) (Region.mk 0 0) 999
      (Region.mk 0 0 :: (List.range m).map ((fun i => Region.mk i i) ∘ Nat.succ))
      = Except.error LoopLimit.message := by
    apply consume_overflow 999 _ (by omega)
    · simp
      omega
    · intro r hr
      rcases List.mem_cons.mp hr with rfl | hr
      · simp [consume_cond]
      · simp only [List.mem_map, List.mem_range, Function.comp] at hr
        obtain ⟨i, hi, rfl⟩ := hr
        simp [consume_cond]
        omega
  exact merge_loop_abort (merge_step_abort_of_consume hcount hdrop hcon)

/-- C1 (amended): whenever `cursor_to_matches` completes without the
loop-guard abort, every original cursor is accounted for exactly once —
the consumed batches of the yielded assignments (with the wrap assignment
covering all cursors remaining when the matches ran out) concatenate to
exactly the direction-ordered original cursor list, so the total equals
the original cursor count.  The instrumented run records the batches; its
projection is the real run. -/
theorem cursor_coverage (cursors matchlist : List Region) (vp : Option Region)
    (inverted : Bool) (l : List BYield)
    (hm : matchlist ≠ []) (hc : cursors ≠ [])
    (h : cursor_to_matches_batched cursors matchlist vp inverted false = (l, none)) :
    (l.map BYield.covered).flatten = (if inverted then cursors.reverse else cursors) ∧
    cursor_to_matches cursors matchlist vp inverted false = (l.map BYield.project, none) := by
  cases hdm : (if inverted then matchlist.reverse else matchlist) with
  | nil => exact absurd ((direction_nil_iff inverted matchlist).mp hdm) hm
  | cons lm dms =>
    cases hdc : (if inverted then cursors.reverse else cursors) with
    | nil => exact absurd ((direction_nil_iff inverted cursors).mp hdc) hc
    | cons c cs =>
      cases hvc : closest_visible (c :: cs) vp inverted with
      | none => exact absurd hvc (closest_visible_ne_none c cs vp inverted)
      | some vc =>
        rw [cursor_to_matches_batched_cons hdm hdc hvc] at h
        constructor
        · exact merge_loop_batched_covered LoopLimit.default_limit LoopLimit.default_limit
            (lm :: dms) (c :: cs) l (by simp) h
        · rw [cursor_to_matches_cons hdm hdc hvc, merge_loop_project, h]

/-- Witness for C1: the two-cursor three-match forward example; the two
batches cover the two cursors and project to the real yields. -/
theorem cursor_coverage_witness :
    (([Region.mk 10 10, Region.mk 20 20, Region.mk 30 30] : List Region) ≠ []) ∧
    (([Region.mk 5 5, Region.mk 15 15] : List Region) ≠ []) ∧
    cursor_to_matches_batched [Region.mk 5 5, Region.mk 15 15]
        [Region.mk 10 10, Region.mk 20 20, Region.mk 30 30] none false false
      = ([BYield.batch [Region.mk 5 5] (Region.mk 10 10) true,
          BYield.batch [Region.mk 15 15] (Region.mk 20 20) false], none) ∧
    (([BYield.batch [Region.mk 5 5] (Region.mk 10 10) true,
       BYield.batch [Region.mk 15 15] (Region.mk 20 20) false].map BYield.covered).flatten
        = (if false then [Region.mk 5 5, Region.mk 15 15].reverse
           else [Region.mk 5 5, Region.mk 15 15]) ∧
     cursor_to_matches [Region.mk 5 5, Region.mk 15 15]
        [Region.mk 10 10, Region.mk 20 20, Region.mk 30 30] none false false
      = ([BYield.batch [Region.mk 5 5] (Region.mk 10 10) true,
          BYield.batch [Region.mk 15 15] (Region.mk 20 20) false].map BYield.project, none)) :=
  ⟨by decide, by decide, by decide,
    cursor_coverage _ _ _ _ _ (by decide) (by decide) (by decide)⟩

/-- C1 counterexample: 999 point cursors (sorted, non-overlapping,
well-formed) and one later match satisfy every precondition of the claim,
yet the call aborts on the loop guard having yielded nothing, so the
yielded assignments cover none of the 999 original cursors. -/
theorem cursor_coverage_guard_counterexample :
    cursor_to_matches ((List.range 999).map fun i => Region.mk i i)
        [Region.mk 1000000 1000000] none false false
      = ([], some LoopLimit.message) ∧
    ((List.range 999).map fun i => Region.mk i i).length = 999 := by
  exact ⟨guard_trip 999 1000000 1000000 (by omega) (by omega), by simp⟩

/-- C2 (amended): for every input satisfying the documented preconditions
on the cursors (sorted ascending by begin, pairwise non-overlapping,
well-formed) and a non-empty match list, if the call completes without
the loop-guard abort then exactly one yielded assignment is flagged
visible — for every direction, viewport and preview flag, including the
empty-cursor fallback. -/
theorem exactly_one_visible (cursors matchlist : List Region) (vp : Option Region)
    (inverted find_visible_only : Bool) (l : List CursorMatch)
    (hm : matchlist ≠ [])
    (hsort : cursors.Pairwise fun a b => a.begin ≤ b.begin)
    (hnov : cursors.Pairwise Region.nonoverlap)
    (hwf : ∀ r ∈ cursors, r.begin ≤ r.stop)
    (h : cursor_to_matches cursors matchlist vp inverted find_visible_only = (l, none)) :
    countVisible l = 1 := by
  cases hdm : (if inverted then matchlist.reverse else matchlist) with
  | nil => exact absurd ((direction_nil_iff inverted matchlist).mp hdm) hm
  | cons lm dms =>
    cases hdc : (if inverted then cursors.reverse else cursors) with
    | nil =>
      unfold cursor_to_matches at h
      rw [hdm] at h
      dsimp only at h
      rw [hdc] at h
      dsimp only at h
      simp only [Prod.mk.injEq] at h
      rw [← h.1]
      simp [countVisible_cons, countVisible_nil]
    | cons c cs =>
      cases hvc : closest_visible (c :: cs) vp inverted with
      | none => exact absurd hvc (closest_visible_ne_none c cs vp inverted)
      | some vc =>
        rw [cursor_to_matches_cons hdm hdc hvc] at h
        have hvc_mem : vc ∈ c :: cs := closest_visible_mem hvc
        have hvc_cursors : vc ∈ cursors := by
          rw [← direction_mem]
          rw [hdc]
          exact hvc_mem
        cases find_visible_only with
        | true =>
          have hinv : CursorInvariant inverted [vc] := by
            refine ⟨by simp, by simp, ?_⟩
            intro r hr
            rcases List.mem_singleton.mp hr with rfl
            exact hwf r hvc_cursors
          have := merge_loop_visible_count LoopLimit.default_limit LoopLimit.default_limit
            (lm :: dms) [vc] l hinv h
          rw [this]
          simp
        | false =>
          have hinv : CursorInvariant inverted (c :: cs) := by
            cases inverted with
            | false =>
              have hdc' : cursors = c :: cs := by simpa using hdc
              rw [← hdc']
              exact ⟨hsort.imp fun h0 => by simpa using h0, hnov, by simpa using hwf⟩
            | true =>
              have hdc' : cursors.reverse = c :: cs := by simpa using hdc
              rw [← hdc']
              refine ⟨?_, ?_, ?_⟩
              · rw [List.pairwise_reverse]
                exact hsort.imp fun h0 => by simpa using h0
              · rw [List.pairwise_reverse]
                exact hnov.imp fun h0 => Or.symm h0
              · intro r hr
                exact hwf r (by simpa using hr)
          have := merge_loop_visible_count LoopLimit.default_limit LoopLimit.default_limit
            (lm :: dms) (c :: cs) l hinv h
          rw [this]
          simp [hvc_mem]

/-- Witness for C2: two sorted point cursors, one match between them; the
first batch is visible, the wrap is not. -/
theorem exactly_one_visible_witness :
    (([Region.mk 10 10] : List Region) ≠ []) ∧
    ([Region.mk 5 5, Region.mk 15 15] : List Region).Pairwise
      (fun a b => a.begin ≤ b.begin) ∧
    ([Region.mk 5 5, Region.mk 15 15] : List Region).Pairwise Region.nonoverlap ∧
    (∀ r ∈ ([Region.mk 5 5, Region.mk 15 15] : List Region), r.begin ≤ r.stop) ∧
    cursor_to_matches [Region.mk 5 5, Region.mk 15 15] [Region.mk 10 10] none false false
      = ([CursorMatch.mk (some (Region.mk 5 5)) (some (Region.mk 10 10)) true,
          CursorMatch.mk none (some (Region.mk 10 10)) false], none) ∧
    countVisible [CursorMatch.mk (some (Region.mk 5 5)) (some (Region.mk 10 10)) true,
          CursorMatch.mk none (some (Region.mk 10 10)) false] = 1 :=
  ⟨by decide, by decide, by decide, by decide, by decide,
    exactly_one_visible [Region.mk 5 5, Region.mk 15 15] [Region.mk 10 10] none false false
      [CursorMatch.mk (some (Region.mk 5 5)) (some (Region.mk 10 10)) true,
       CursorMatch.mk none (some (Region.mk 10 10)) false]
      (by decide) (by decide) (by decide) (by decide) (by decide)⟩

/-- C2 counterexample: 1000 point cursors (satisfying all preconditions)
and one later match make the call abort on the loop guard before any
yield, so the yielded sequence contains zero visible assignments, not
exactly one. -/
theorem exactly_one_visible_guard_counterexample :
    cursor_to_matches ((List.range 1000).map fun i => Region.mk i i)
        [Region.mk 2000000 2000000] none false false
      = ([], some LoopLimit.message) ∧
    countVisible (cursor_to_matches ((List.range 1000).map fun i => Region.mk i i)
        [Region.mk 2000000 2000000] none false false).1 = 0 := by
  have h := guard_trip 1000 2000000 2000000 (by omega) (by omega)
  exact ⟨h, by rw [h]; rfl⟩

/-! ### The mirror symmetry of the merge -/

theorem Region.mirror_inj {n : Nat} {a b : Region} (ha : a.wfIn n) (hb : b.wfIn n)
    (h : a.mirror n = b.mirror n) : a = b := by
  obtain ⟨a1, a2⟩ := a
  obtain ⟨b1, b2⟩ := b
  simp only [Region.mirror, Region.mk.injEq, Region.wfIn] at *
  omega

theorem stale_cond_mirror {n : Nat} {c m : Region} (hc : c.wfIn n) (hm : m.wfIn n) :
    stale_cond true (c.mirror n) (m.mirror n) = stale_cond false c m := by
  obtain ⟨hc1, hc2⟩ := hc
  obtain ⟨hm1, hm2⟩ := hm
  simp only [stale_cond, Region.mirror, Bool.not_true, Bool.not_false, Bool.false_and,
    Bool.true_and, Bool.false_or, Bool.or_false, decide_eq_decide]
  omega

theorem consume_cond_mirror {n : Nat} {c m : Region} (hc : c.wfIn n) (hm : m.wfIn n) :
    consume_cond true (c.mirror n) (m.mirror n) = consume_cond false c m := by
  obtain ⟨hc1, hc2⟩ := hc
  obtain ⟨hm1, hm2⟩ := hm
  simp only [consume_cond, Region.mirror, Bool.not_true, Bool.not_false, Bool.false_and,
    Bool.true_and, Bool.false_or, Bool.or_false, decide_eq_decide]
  omega

theorem mem_mirror_iff {n : Nat} {v : Region} {l : List Region}
    (hv : v.wfIn n) (hl : ∀ r ∈ l, r.wfIn n) :
    (v.mirror n ∈ l.map (Region.mirror n)) ↔ v ∈ l := by
  constructor
  · intro h
    obtain ⟨x, hx, hxe⟩ := List.mem_map.mp h
    exact Region.mirror_inj (hl x hx) hv hxe ▸ hx
  · intro h
    exact List.mem_map_of_mem _ h

theorem drop_stale_mirror {n : Nat} {c : Region} (hc : c.wfIn n) :
    ∀ (k : Nat) (ms : List Region), (∀ r ∈ ms, r.wfIn n) →
    drop_stale true (c.mirror n) k (ms.map (Region.mirror n)) =
      Except.map (fun p => (p.1, p.2.map (Region.mirror n))) (drop_stale false c k ms) := by
  intro k ms
  induction ms generalizing k with
  | nil => intro _; rfl
  | cons m ms ih =>
    intro hwf
    have hm := hwf m (List.mem_cons_self _ _)
    simp only [List.map_cons, drop_stale, stale_cond_mirror hc hm]
    cases hcond : stale_cond false c m with
    | false => simp [Except.map]
    | true =>
      simp only [if_true]
      cases hcount : LoopLimit.count k with
      | error e => simp [Except.map]
      | ok k' =>
        dsimp only
        exact ih k' (fun r hr => hwf r (List.mem_cons_of_mem _ hr))

theorem consume_mirror {n : Nat} {m vc : Region} (hm : m.wfIn n) (hvc : vc.wfIn n) :
    ∀ (k : Nat) (cs : List Region), (∀ r ∈ cs, r.wfIn n) →
    consume true (m.mirror n) (vc.mirror n) k (cs.map (Region.mirror n)) =
      Except.map
        (fun q => (q.1, q.2.1, q.2.2.1.map (Region.mirror n), q.2.2.2.map (Region.mirror n)))
        (consume false m vc k cs) := by
  intro k cs
  induction cs generalizing k with
  | nil => intro _; rfl
  | cons c cs ih =>
    intro hwf
    have hc := hwf c (List.mem_cons_self _ _)
    simp only [List.map_cons, consume, consume_cond_mirror hc hm]
    cases hcond : consume_cond false c m with
    | false => simp [Except.map]
    | true =>
      simp only [if_true]
      cases hcount : LoopLimit.count k with
      | error e => simp [Except.map]
      | ok k' =>
        dsimp only
        rw [ih k' (fun r hr => hwf r (List.mem_cons_of_mem _ hr))]
        cases hrec : consume false m vc k' cs with
        | error e => simp [Except.map]
        | ok q =>
          obtain ⟨ka, wva, replaceda, resta⟩ := q
          simp only [Except.map, Except.ok.injEq, Prod.mk.injEq, List.map_cons]
          refine ⟨trivial, ?_, trivial⟩
          congr 1
          rw [decide_eq_decide]
          constructor
          · intro he
            exact Region.mirror_inj hc hvc he
          · intro he
            exact he ▸ rfl

theorem merge_step_mirror {n : Nat} {vc m₀ c₀ : Region} {ms₀ cs₀ : List Region}
    {counter : Nat}
    (hvc : vc.wfIn n) (hm : ∀ r ∈ m₀ :: ms₀, r.wfIn n) (hcs : ∀ r ∈ c₀ :: cs₀, r.wfIn n) :
    merge_step true (vc.mirror n) counter (m₀.mirror n) (ms₀.map (Region.mirror n))
        (c₀.mirror n) (cs₀.map (Region.mirror n)) =
      StepResult.mirror n (merge_step false vc counter m₀ ms₀ c₀ cs₀) := by
  unfold merge_step
  cases hcount : LoopLimit.count counter with
  | error e => simp [StepResult.mirror]
  | ok k =>
    dsimp only
    have hc₀ := hcs c₀ (List.mem_cons_self _ _)
    have hdm := drop_stale_mirror hc₀ k (m₀ :: ms₀) hm
    rw [show (Region.mirror n m₀ :: ms₀.map (Region.mirror n))
        = (m₀ :: ms₀).map (Region.mirror n) from rfl, hdm]
    cases hdrop : drop_stale false c₀ k (m₀ :: ms₀) with
    | error e => simp [Except.map, StepResult.mirror]
    | ok p =>
      obtain ⟨k2, matches2⟩ := p
      simp only [Except.map]
      cases matches2 with
      | nil =>
        simp only [List.map_nil, StepResult.mirror, StepResult.wrap.injEq]
        refine ⟨rfl, ?_⟩
        rw [show (Region.mirror n c₀ :: cs₀.map (Region.mirror n))
            = (c₀ :: cs₀).map (Region.mirror n) from rfl]
        rw [decide_eq_decide]
        exact mem_mirror_iff hvc hcs
      | cons m1 ms1 =>
        have hm1 : m1.wfIn n := by
          have hsuf := (drop_stale_ok hdrop).2.1
          exact hm m1 (hsuf.sublist.mem (List.mem_cons_self _ _))
        dsimp only [List.map_cons]
        rw [show (Region.mirror n c₀ :: cs₀.map (Region.mirror n))
            = (c₀ :: cs₀).map (Region.mirror n) from rfl]
        rw [consume_mirror hm1 hvc k2 (c₀ :: cs₀) hcs]
        cases hcon : consume false m1 vc k2 (c₀ :: cs₀) with
        | error e => simp [Except.map, StepResult.mirror]
        | ok q =>
          obtain ⟨ka, wva, replaceda, resta⟩ := q
          simp [Except.map, StepResult.mirror]

theorem merge_loop_mirror {n : Nat} {vc lm : Region} (hvc : vc.wfIn n) (hlm : lm.wfIn n) :
    ∀ (fuel counter : Nat) (ms cs : List Region),
    (∀ r ∈ ms, r.wfIn n) → (∀ r ∈ cs, r.wfIn n) →
    merge_loop true (vc.mirror n) (lm.mirror n) fuel counter (ms.map (Region.mirror n))
        (cs.map (Region.mirror n)) =
      ((merge_loop false vc lm fuel counter ms cs).1.map (CursorMatch.mirror n),
       (merge_loop false vc lm fuel counter ms cs).2) := by
  intro fuel
  induction fuel with
  | zero =>
    intro counter ms cs hms hcs
    cases ms with
    | nil => rfl
    | cons m₀ ms₀ => cases cs <;> rfl
  | succ f ih =>
    intro counter ms cs hms hcs
    cases ms with
    | nil => rfl
    | cons m₀ ms₀ =>
      cases cs with
      | nil => rfl
      | cons c₀ cs₀ =>
        simp only [List.map_cons, merge_loop]
        rw [merge_step_mirror hvc hms hcs]
        cases hstep : merge_step false vc counter m₀ ms₀ c₀ cs₀ with
        | abort e => simp [StepResult.mirror]
        | wrap cov vis => simp [StepResult.mirror, CursorMatch.mirror]
        | batch replaced m vis k2 ms' cs' =>
          dsimp only [StepResult.mirror]
          obtain ⟨n1, k1, ms2, hcount, hdrop, hms', hcon⟩ := merge_step_batch hstep
          have hwfms' : ∀ r ∈ ms', r.wfIn n := by
            intro r hr
            have hsuf := (drop_stale_ok hdrop).2.1
            rw [← hms'] at hsuf
            exact hms r (hsuf.sublist.mem hr)
          have hwfcs' : ∀ r ∈ cs', r.wfIn n := by
            intro r hr
            have happ := (consume_ok hcon).2.1
            refine hcs r ?_
            rw [← happ]
            exact List.mem_append_right _ hr
          rw [ih k2 ms' cs' hwfms' hwfcs']
          simp [CursorMatch.mirror, List.head?_map]

/-- C7 counterexample: the claim as stated — run with `reverse(cursors)`,
`reverse(matches)` and `inverted = true` and get the mirror image of the
forward run, same matches targeted in reversed order — is false.  Forward,
cursors `@5, @15` against matches `@10, @20, @30` target `@10` then `@20`;
the inverted run on the reversed lists immediately drops every match
behind the (re-reversed) front cursor and wraps, producing the single
assignment `(none, @10, visible)`: not the same targets, not in reversed
order. -/
theorem reverse_symmetry_counterexample :
    cursor_to_matches [Region.mk 5 5, Region.mk 15 15]
        [Region.mk 10 10, Region.mk 20 20, Region.mk 30 30] none false false
      = ([CursorMatch.mk (some (Region.mk 5 5)) (some (Region.mk 10 10)) true,
          CursorMatch.mk (some (Region.mk 15 15)) (some (Region.mk 20 20)) false], none) ∧
    cursor_to_matches [Region.mk 15 15, Region.mk 5 5]
        [Region.mk 30 30, Region.mk 20 20, Region.mk 10 10] none true false
      = ([CursorMatch.mk none (some (Region.mk 10 10)) true], none) ∧
    ¬ ((cursor_to_matches [Region.mk 15 15, Region.mk 5 5]
          [Region.mk 30 30, Region.mk 20 20, Region.mk 10 10] none true false).1.map
            CursorMatch.region
        = ((cursor_to_matches [Region.mk 5 5, Region.mk 15 15]
            [Region.mk 10 10, Region.mk 20 20, Region.mk 30 30] none false false).1.map
              CursorMatch.region).reverse) := by
  decide

/-- C7 (amended): the symmetry the code actually has is positional
reflection, not list reversal.  Mirror every region through `[0, n]`
(`x ↦ n - x`, swapping begins and ends), reverse the mirrored lists so
they are again sorted ascending, and run with `inverted = true` and no
viewport: the run yields exactly the pointwise-mirrored assignments of
the forward run, in the same order, with the same visibility flags and
the same termination behaviour. -/
theorem mirror_symmetry (n : Nat) (cursors matchlist : List Region)
    (find_visible_only : Bool)
    (hc : ∀ r ∈ cursors, r.wfIn n) (hm : ∀ r ∈ matchlist, r.wfIn n) :
    cursor_to_matches ((cursors.map (Region.mirror n)).reverse)
        ((matchlist.map (Region.mirror n)).reverse) none true find_visible_only =
      ((cursor_to_matches cursors matchlist none false find_visible_only).1.map
          (CursorMatch.mirror n),
       (cursor_to_matches cursors matchlist none false find_visible_only).2) := by
  cases matchlist with
  | nil =>
    simp only [List.map_nil, List.reverse_nil]
    rw [empty_matches_empty_output, empty_matches_empty_output]
    rfl
  | cons m1 ml =>
    have hm1 : m1.wfIn n := hm m1 (List.mem_cons_self _ _)
    cases cursors with
    | nil =>
      simp only [List.map_nil, List.reverse_nil]
      unfold cursor_to_matches
      rw [show (if true then (((m1 :: ml).map (Region.mirror n)).reverse).reverse
          else ((m1 :: ml).map (Region.mirror n)).reverse)
          = m1.mirror n :: ml.map (Region.mirror n) from by simp]
      rfl
    | cons c1 cl =>
      have hc1 : c1.wfIn n := hc c1 (List.mem_cons_self _ _)
      have hdm : (if false then (m1 :: ml).reverse else m1 :: ml) = m1 :: ml := rfl
      have hdc : (if false then (c1 :: cl).reverse else c1 :: cl) = c1 :: cl := rfl
      have hvf : closest_visible (c1 :: cl) none false = some c1 := rfl
      rw [cursor_to_matches_cons hdm hdc hvf]
      have hdm' : (if true then (((m1 :: ml).map (Region.mirror n)).reverse).reverse
          else ((m1 :: ml).map (Region.mirror n)).reverse)
          = m1.mirror n :: ml.map (Region.mirror n) := by simp
      have hdc' : (if true then (((c1 :: cl).map (Region.mirror n)).reverse).reverse
          else ((c1 :: cl).map (Region.mirror n)).reverse)
          = c1.mirror n :: cl.map (Region.mirror n) := by simp
      have hvf' : closest_visible (c1.mirror n :: cl.map (Region.mirror n)) none true
          = some (c1.mirror n) := rfl
      rw [cursor_to_matches_cons hdm' hdc' hvf']
      cases find_visible_only with
      | true =>
        exact merge_loop_mirror hc1 hm1 LoopLimit.default_limit LoopLimit.default_limit
          (m1 :: ml) [c1] hm (by intro r hr; rcases List.mem_singleton.mp hr with rfl; exact hc1)
      | false =>
        exact merge_loop_mirror hc1 hm1 LoopLimit.default_limit LoopLimit.default_limit
          (m1 :: ml) (c1 :: cl) hm hc

/-- Witness for C7 (amended): the mirror symmetry at `n = 40` on the
two-cursor, three-match forward example. -/
theorem mirror_symmetry_witness :
    (∀ r ∈ ([Region.mk 5 5, Region.mk 15 15] : List Region), r.wfIn 40) ∧
    (∀ r ∈ ([Region.mk 10 10, Region.mk 20 20, Region.mk 30 30] : List Region), r.wfIn 40) ∧
    cursor_to_matches (([Region.mk 5 5, Region.mk 15 15].map (Region.mirror 40)).reverse)
        (([Region.mk 10 10, Region.mk 20 20, Region.mk 30 30].map (Region.mirror 40)).reverse)
        none true false =
      ((cursor_to_matches [Region.mk 5 5, Region.mk 15 15]
          [Region.mk 10 10, Region.mk 20 20, Region.mk 30 30] none false false).1.map
          (CursorMatch.mirror 40),
       (cursor_to_matches [Region.mk 5 5, Region.mk 15 15]
          [Region.mk 10 10, Region.mk 20 20, Region.mk 30 30] none false false).2) :=
  ⟨by decide, by decide,
    mirror_symmetry 40 [Region.mk 5 5, Region.mk 15 15]
      [Region.mk 10 10, Region.mk 20 20, Region.mk 30 30] false (by decide) (by decide)⟩
